import Mathlib

/-!
Verification of the manifest/config patch-and-apply layer of the
phd-cluster-template repository.

Python strings are modelled as `List Char` (with `String` only at the API
boundary, converted via `String.toList` / `String.mk`), so that every
operation is a structurally recursive, kernel-computable Lean function.
Python exceptions are modelled as `Except`: a `raise` becomes `.error`.
Python `dict`s are modelled as ordered association lists, matching CPython
insertion-order semantics.
-/

set_option maxHeartbeats 1000000

namespace Phd

/-- Python `c in s` for a single character: membership of a character. -/
def containsChar (c : Char) (l : List Char) : Bool :=
  l.any (fun d => d = c)

/-- Python `s.split(sep)` for a one-character separator: splits at every
occurrence, keeping empty pieces; `''.split(sep) == ['']`. -/
def splitOnChar (sep : Char) : List Char → List (List Char)
  | [] => [[]]
  | c :: cs =>
    if c = sep then [] :: splitOnChar sep cs
    else
      match splitOnChar sep cs with
      | [] => [[c]]
      | l :: ls => (c :: l) :: ls

/-- Python `sep.join(pieces)` for a one-character separator. -/
def joinChar (sep : Char) : List (List Char) → List Char
  | [] => []
  | [l] => l
  | l :: l2 :: ls => l ++ sep :: joinChar sep (l2 :: ls)

/-- Python `parts[-1]` for the (always non-empty) result of a split. -/
def lastPiece (ls : List (List Char)) : List Char :=
  ls.getLastD []

/-- `List.isPrefixOf` written out, so every proof controls its unfolding. -/
def startsWithL : List Char → List Char → Bool
  | [], _ => true
  | _ :: _, [] => false
  | a :: as, b :: bs => a = b && startsWithL as bs

/-- Python `needle in hay` (substring containment). -/
def hasSub (needle : List Char) : List Char → Bool
  | [] => needle.isEmpty
  | c :: rest => startsWithL needle (c :: rest) || hasSub needle rest

/-- `s.split(c, 1)[0]`: everything before the first occurrence of `c`. -/
def beforeChar (c : Char) (l : List Char) : List Char :=
  l.takeWhile (fun d => d ≠ c)

/--
`compute_full_image` from `.github/workflows/scripts/update_config_image.py`
(the copy in `update_env_image_refs.py` is character-for-character the same
function).  The script's `raise SystemExit(...)` is modelled as `.error`.
-/
def compute_full_image (image_name image_tag : String) : Except String String :=
  if containsChar '@' image_name.toList then .ok image_name
  else
    let last_segment := lastPiece (splitOnChar '/' image_name.toList)
    if containsChar ':' last_segment then .ok image_name
    else if image_tag = "" then
      .error "--image-tag must be provided when --image-name has no tag"
    else .ok (image_name ++ ":" ++ image_tag)

/-- `strip_tag_or_digest` from `update_env_image_refs.py`. -/
def strip_tag_or_digest (image_name : String) : String :=
  let n := image_name.toList
  if containsChar '@' n then String.mk (beforeChar '@' n)
  else
    let parts := splitOnChar '/' n
    let last := lastPiece parts
    let last2 := if containsChar ':' last then beforeChar ':' last else last
    String.mk (joinChar '/' (parts.dropLast ++ [last2]))

/-! ## RBAC policy editor
(`tooling/phd/cli/argo_user_create.py` / `argo_user_delete.py`) -/

/-- The filter token the code uses: `f"g, {username}, "`. -/
def subjectToken (subject : List Char) : List Char :=
  "g, ".toList ++ subject ++ ", ".toList

/-- The appended line: `f"g, {username}, role:{role}"`. -/
def policyEntry (subject role : List Char) : List Char :=
  "g, ".toList ++ subject ++ ", role:".toList ++ role

/-- The policy-line filter shared by `_update_rbac_policy` and
`_remove_rbac_policy`: keep the lines that do not contain the token. -/
def keepLines (subject : List Char) (lines : List (List Char)) : List (List Char) :=
  lines.filter (fun l => !(hasSub (subjectToken subject) l))

/-- The `policy.csv` transformation inside `_update_rbac_policy`
(`argo_user_create.py`): split on newline, drop the lines containing
`"g, " + subject + ", "`, append the new grant line, rejoin. -/
def upsert_subject_role (policy subject role : List Char) : List Char :=
  joinChar '\n' (keepLines subject (splitOnChar '\n' policy) ++ [policyEntry subject role])

/-- The `policy.csv` transformation inside `_remove_rbac_policy`
(`argo_user_delete.py`): the same filter, with nothing appended. -/
def remove_subject (policy subject : List Char) : List Char :=
  joinChar '\n' (keepLines subject (splitOnChar '\n' policy))

/-- The filter token as claim C3 words it: `", " + subject + ", "`
(comma-space on both sides, without the leading `g`). -/
def claimToken (subject : List Char) : List Char :=
  ", ".toList ++ subject ++ ", ".toList

/-- `upsert_subject_role` as claim C3 describes it: identical except that
the dropped lines are those containing `claimToken`. -/
def claim_upsert_subject_role (policy subject role : List Char) : List Char :=
  joinChar '\n'
    ((splitOnChar '\n' policy).filter (fun l => !(hasSub (claimToken subject) l))
      ++ [policyEntry subject role])

/-- `remove_subject` as claim C3 describes it. -/
def claim_remove_subject (policy subject : List Char) : List Char :=
  joinChar '\n'
    ((splitOnChar '\n' policy).filter (fun l => !(hasSub (claimToken subject) l)))

/-! ## Username sanitizer (`tooling/phd/utils.py`) -/

/-- Characters kept by the sanitizer: `[a-z0-9.-]`. -/
def allowedChar (c : Char) : Bool :=
  ('a' ≤ c && c ≤ 'z') || ('0' ≤ c && c ≤ '9') || c = '.' || c = '-'

/--
Python `str.lower()` on one character, as a character list because the
lowercase mapping of U+0130 has two characters.  The mapping is exact on
every character whose Unicode lowercase meets `[a-z0-9.-]`: the ASCII
letters `A`–`Z`, U+212A KELVIN SIGN → `k`, and U+0130 LATIN CAPITAL LETTER
I WITH DOT ABOVE → `i` + U+0307 (the only unconditional multi-character
lowercase mapping).  Every other character is kept unchanged; its Unicode
lowercase is a single character still outside `[a-z0-9.-]`, so after the
following `[^a-z0-9.-]` → `-` substitution both it and its real lowercase
become `-`, and the composite pipeline agrees with the source on every
input.
-/
def pyLowerChar (c : Char) : List Char :=
  if 'A' ≤ c && c ≤ 'Z' then [Char.ofNat (c.toNat + 32)]
  else if c = '\u212A' then ['k']
  else if c = '\u0130' then ['i', '\u0307']
  else [c]

/-- Python `str.lower()` on a string. -/
def pyLower (l : List Char) : List Char :=
  (l.map pyLowerChar).flatten

/-- `re.sub(r"X+", "X", s)` for a single character `X`: collapse runs. -/
def collapseRun (t : Char) : List Char → List Char
  | [] => []
  | [c] => [c]
  | a :: b :: rest =>
    if a = t && b = t then collapseRun t (b :: rest)
    else a :: collapseRun t (b :: rest)

/-- Python `s.strip(chars)`: drop the matching characters from both ends. -/
def stripEnds (p : Char → Bool) (l : List Char) : List Char :=
  ((l.dropWhile p).reverse.dropWhile p).reverse

/-- The sanitizing pipeline of `sanitize_username` before the emptiness
check: lowercase, replace disallowed characters by `-`, collapse `-` runs,
collapse `.` runs, strip `-`/`.` from both ends. -/
def sanitizePipeline (u : List Char) : List Char :=
  stripEnds (fun c => c = '-' || c = '.')
    (collapseRun '.'
      (collapseRun '-'
        ((pyLower u).map (fun c => if allowedChar c then c else '-'))))

/-- `sanitize_username` from `tooling/phd/utils.py`; the `raise ValueError`
on an empty result is modelled as `.error`. -/
def sanitize_username (username : String) : Except String String :=
  let r := sanitizePipeline username.toList
  if r.isEmpty then .error "Username cannot be sanitized to a non-empty string"
  else .ok (String.mk r)

/-! ## Workflow wait (`tooling/phd/cli/instance_create.py`) -/

/-- The outcome of one external `kubectl` invocation: `ok stdout` for exit
code 0, `failed` for a non-zero exit (`subprocess.CalledProcessError`). -/
inductive CmdResult : Type where
  | ok (stdout : String)
  | failed
deriving DecidableEq

/-- ASCII approximation of Python `str.strip()` whitespace. -/
def isPySpace (c : Char) : Bool :=
  c = ' ' || c = '\t' || c = '\n' || c = '\r' || c = '\x0b' || c = '\x0c'

/-- Python `s.strip()` (both ends), over the ASCII whitespace set. -/
def pyStrip (s : String) : String :=
  let l1 := s.toList.dropWhile isPySpace
  String.mk ((l1.reverse.dropWhile isPySpace).reverse)

/--
`_wait_for_workflow_completion`: the two external commands (`kubectl wait`
with the timeout, then `kubectl get ... jsonpath=.status.phase`) are inputs;
a `CalledProcessError` from either one is caught and yields `false`; on
success of both, the stripped phase must equal `"Succeeded"`.
-/
def wait_for_workflow_completion (waitRes getRes : CmdResult) : Bool :=
  match waitRes with
  | .failed => false
  | .ok _ =>
    match getRes with
    | .failed => false
    | .ok out => pyStrip out = "Succeeded"

/-- The `all_succeeded` aggregation loop of `_create_provision_workflows`:
starts at `True`, and each failed wait sets it to `False`. -/
def aggregate_all_succeeded (results : List Bool) : Bool :=
  results.foldl (fun acc r => if !r then false else acc) true

/-- The tail of `_create_provision_workflows` after all waits: raises
`KubernetesError` exactly when `all_succeeded` ended up `False`. -/
def create_provision_workflows_outcome (results : List Bool) : Except String Unit :=
  if aggregate_all_succeeded results then .ok ()
  else .error "Workflows may have failed for instance"

/-! ## Deep merge (`.github/workflows/scripts/update_config.py`)

Python values are modelled as `PyVal`: a `dict` (ordered association list,
CPython insertion-order semantics) or an `atom` standing for every non-dict
value (string, number, boolean, null, list).  `merge_dicts` only ever tests
`isinstance(x, dict)`, and every item assignment or membership test it
performs on a non-dict value raises `TypeError`, so the atoms' payload is
irrelevant to the merge. -/

inductive PyVal : Type where
  | atom : String → PyVal
  | dict : List (String × PyVal) → PyVal

/-- First-occurrence lookup: Python `d[k]` / `k in d` on a dict. -/
def lookupD : List (String × PyVal) → String → Option PyVal
  | [], _ => none
  | (k1, v1) :: rest, k => if k1 = k then some v1 else lookupD rest k

/-- Python `d[k] = v` on a dict: replace in place if the key is present
(keeping its position), otherwise append at the end. -/
def updateD : List (String × PyVal) → String → PyVal → List (String × PyVal)
  | [], k, v => [(k, v)]
  | (k1, v1) :: rest, k, v =>
    if k1 = k then (k, v) :: rest else (k1, v1) :: updateD rest k v

mutual
/--
`merge_dicts(dict1, dict2)` recursing into `dict1[key]` when `dict2[key]`
is a dict and `key in dict1` — `dict1[key]` may then be any value.  When it
is a non-dict: a non-empty `dict2[key]` makes the loop body perform an item
assignment (or membership test) on the non-dict, raising `TypeError`
(modelled `.error ()`), while an empty `dict2[key]` makes the loop body run
zero times, leaving the value unchanged.
-/
def mergeVal : PyVal → List (String × PyVal) → Except Unit PyVal
  | PyVal.dict d, src => Except.map PyVal.dict (mergeDicts d src)
  | PyVal.atom a, src => if src.isEmpty then Except.ok (PyVal.atom a) else Except.error ()
termination_by v src => sizeOf src + 1
decreasing_by all_goals (simp_wf <;> omega)

/-- `merge_dicts` from `update_config.py`, with the in-place mutation of
`dict1` made explicit: the updated dict is threaded through the loop over
`dict2`'s keys. -/
def mergeDicts : List (String × PyVal) → List (String × PyVal) → Except Unit (List (String × PyVal))
  | d, [] => Except.ok d
  | d, (k, v) :: rest =>
    match v with
    | PyVal.dict sd =>
      match lookupD d k with
      | some v1 =>
        match mergeVal v1 sd with
        | Except.ok m => mergeDicts (updateD d k m) rest
        | Except.error e => Except.error e
      | none => mergeDicts (updateD d k (PyVal.dict sd)) rest
    | PyVal.atom a => mergeDicts (updateD d k (PyVal.atom a)) rest
termination_by d src => sizeOf src
decreasing_by all_goals (simp_wf <;> omega)
end

/-- `key in d` as a Boolean. -/
def keyMem (k : String) (d : List (String × PyVal)) : Bool :=
  d.any (fun p => p.1 = k)

mutual
/-- Well-formedness of a modelled Python value: every nested dict has
pairwise-distinct keys (true of every real Python dict). -/
def WFv : PyVal → Bool
  | PyVal.atom _ => true
  | PyVal.dict d => WFd d
termination_by v => sizeOf v
decreasing_by all_goals (simp_wf <;> omega)

/-- Well-formedness of a modelled Python dict. -/
def WFd : List (String × PyVal) → Bool
  | [] => true
  | (k, v) :: rest => !(keyMem k rest) && WFv v && WFd rest
termination_by d => sizeOf d
decreasing_by all_goals (simp_wf <;> omega)
end

mutual
/-- `compatV v1 sd`: merging the source sub-dict `sd` into the existing
destination value `v1` does not hit a `TypeError`: either `v1` is a dict
whose overlapping keys are recursively compatible, or `sd` is empty. -/
def compatV : PyVal → List (String × PyVal) → Bool
  | PyVal.dict d1, sd => compatD d1 sd
  | PyVal.atom _, sd => sd.isEmpty
termination_by v sd => sizeOf sd + 1
decreasing_by all_goals (simp_wf <;> omega)

/-- `compatD d src`: no key of `src` maps a non-empty dict onto an existing
non-dict value of `d`, recursively. -/
def compatD : List (String × PyVal) → List (String × PyVal) → Bool
  | _, [] => true
  | d, (k, v) :: rest =>
    (match v with
     | PyVal.dict sd =>
       (match lookupD d k with
        | some v1 => compatV v1 sd
        | none => true)
     | PyVal.atom _ => true) && compatD d rest
termination_by d src => sizeOf src
decreasing_by all_goals (simp_wf <;> omega)
end

/-- `merge` exactly as claim C2 words it: recurse only when **both** sides
are mappings; in every other case overwrite `dst[key]` with `src[key]`;
never fail. -/
def claimMergeDicts : List (String × PyVal) → List (String × PyVal) → List (String × PyVal)
  | d, [] => d
  | d, (k, v) :: rest =>
    match v with
    | PyVal.dict sd =>
      match lookupD d k with
      | some (PyVal.dict d1) => claimMergeDicts (updateD d k (PyVal.dict (claimMergeDicts d1 sd))) rest
      | _ => claimMergeDicts (updateD d k (PyVal.dict sd)) rest
    | PyVal.atom a => claimMergeDicts (updateD d k (PyVal.atom a)) rest
termination_by d src => sizeOf src
decreasing_by
  all_goals simp_wf <;> omega

/-! ## Env-tree image patcher (`.github/workflows/scripts/update_env_image_refs.py`)

A file is modelled as its `splitlines()` decomposition (a list of lines,
none containing a newline), and the env directory as a list of
`(path, lines)` pairs.  The regex
`^(\s*image:\s*)(<base>(?:[:@][^\s#]+)?)(\s*(#.*)?)$`
is implemented as a direct greedy matcher; because the tail `\s*(#.*)?$`
can only succeed at the maximal extent of `[^\s#]+`, greedy matching
without backtracking decides the same lines as the regex for any `base`
not beginning with a whitespace character. -/

/-- Drop `p` from the front of `s` if it is a literal prefix. -/
def dropPre : List Char → List Char → Option (List Char)
  | [], s => some s
  | _ :: _, [] => none
  | a :: as, b :: bs => if a = b then dropPre as bs else none

/-- The optional `(?:[:@][^\s#]+)?` tag-or-digest group: returns the
remainder of the line after the group (the group itself is discarded, as
the rewrite replaces it). -/
def dropTagOpt (r : List Char) : List Char :=
  match r with
  | [] => []
  | c :: rest =>
    if c = ':' || c = '@' then
      let t := rest.takeWhile (fun d => !isPySpace d && d ≠ '#')
      if t.isEmpty then c :: rest else rest.drop t.length
    else c :: rest

/-- The trailing `\s*(#.*)?$` group: optional whitespace, then an optional
comment running to the end of the line. -/
def suffixOk (r : List Char) : Bool :=
  match r.dropWhile isPySpace with
  | [] => true
  | c :: _ => c = '#'

/-- The literal `image:` of the regex, as an explicit character list. -/
def imageKeyChars : List Char := ['i', 'm', 'a', 'g', 'e', ':']

/-- One line of `patch_file`: `some rewritten` when the regex matches
(group 1, the new image, and group 3 are concatenated), `none` otherwise. -/
def patch_line (base full : List Char) (line : List Char) : Option (List Char) :=
  let ws1 := line.takeWhile isPySpace
  let r1 := line.dropWhile isPySpace
  match dropPre imageKeyChars r1 with
  | none => none
  | some r2 =>
    let ws2 := r2.takeWhile isPySpace
    let r3 := r2.dropWhile isPySpace
    match dropPre base r3 with
    | none => none
    | some r4 =>
      let r5 := dropTagOpt r4
      if suffixOk r5 then
        some (ws1 ++ imageKeyChars ++ ws2 ++ full ++ r5)
      else none

/-- `patch_file`: the changed flag and the resulting lines. -/
def patch_file (base full : List Char) (lines : List (List Char)) :
    Bool × List (List Char) :=
  (lines.any (fun l => (patch_line base full l).isSome),
   lines.map (fun l => (patch_line base full l).getD l))

/-- `s.endswith(suf)`. -/
def endsWithL (suf l : List Char) : Bool :=
  startsWithL suf.reverse l.reverse

/-- Lexicographic comparison of paths, Python `sorted(key=str)`. -/
def charListLe : List Char → List Char → Bool
  | [], _ => true
  | _ :: _, [] => false
  | a :: as, b :: bs => if a = b then charListLe as bs else decide (a < b)

/-- Insert into a name-sorted file list. -/
def insertFile (f : String × List (List Char)) :
    List (String × List (List Char)) → List (String × List (List Char))
  | [] => [f]
  | g :: gs =>
    if charListLe f.1.toList g.1.toList then f :: g :: gs
    else g :: insertFile f gs

/-- `iter_env_yaml_files`'s `sorted(...)`. -/
def sortFiles : List (String × List (List Char)) → List (String × List (List Char))
  | [] => []
  | f :: fs => insertFile f (sortFiles fs)

/-- `iter_env_yaml_files`: the `*.yml`/`*.yaml` files, sorted by path. -/
def iter_env_yaml_files (files : List (String × List (List Char))) :
    List (String × List (List Char)) :=
  sortFiles (files.filter
    (fun f => endsWithL ".yml".toList f.1.toList || endsWithL ".yaml".toList f.1.toList))

/--
`patch_env`: computes the full image (which may fail like
`compute_full_image`), strips it back to the base image, patches every
YAML file, and returns `((files_changed_count, changed_paths), new_files)`
where `new_files` is the post-write content of the YAML files.
-/
def patch_env (files : List (String × List (List Char))) (image_name image_tag : String) :
    Except String ((Nat × List String) × List (String × List (List Char))) :=
  match compute_full_image image_name image_tag with
  | .error e => .error e
  | .ok full =>
    let base := (strip_tag_or_digest full).toList
    let results := (iter_env_yaml_files files).map
      (fun f => (f.1, patch_file base full.toList f.2))
    let changed := (results.filter (fun r => r.2.1)).map (fun r => r.1)
    .ok ((changed.length, changed), results.map (fun r => (r.1, r.2.2)))

/-! ## Manifest apply (`tooling/phd/kubernetes.py`, `apply_manifest`)

The YAML stream is modelled as a list of already-parsed documents
(`none` for a null document, `some d` for a mapping document); the
per-document cluster primitive (`_apply_resource_with_kubectl`) is an
explicit state-transforming argument, so the cluster side effects are an
explicit state. -/

/-- `filter(lambda x: x, documents)`: a null document and an empty mapping
are both falsy and skipped. -/
def docTruthy : Option (List (String × PyVal)) → Bool
  | none => false
  | some d => !d.isEmpty

/-- `doc["metadata"] = doc.get("metadata", {});
doc["metadata"]["namespace"] = namespace`.  If a present `metadata` value
is not a mapping, the item assignment on it raises `TypeError`. -/
def forceNamespace (ns : String) (doc : List (String × PyVal)) :
    Except Unit (List (String × PyVal)) :=
  match lookupD doc "metadata" with
  | some (PyVal.dict m) =>
    Except.ok (updateD doc "metadata" (PyVal.dict (updateD m "namespace" (PyVal.atom ns))))
  | some (PyVal.atom _) => Except.error ()
  | none =>
    Except.ok (updateD doc "metadata" (PyVal.dict [("namespace", PyVal.atom ns)]))

/-- Errors surfacing from `apply_manifest`: a `TypeError` on a non-mapping
`metadata`, or whatever the apply primitive raised. -/
inductive ApplyErr (ε : Type) : Type where
  | typeErr
  | primErr (e : ε)

/--
`apply_manifest` (after parsing): each truthy document gets its namespace
forced and is applied through `applyPrim` in order; the first failure stops
the loop and is raised, and the state reached so far — the effect of the
documents already applied — persists.
-/
def apply_manifest {σ ε : Type} (applyPrim : σ → List (String × PyVal) → Except ε σ)
    (s : σ) (docs : List (Option (List (String × PyVal)))) (ns : String) :
    σ × Option (ApplyErr ε) :=
  match docs with
  | [] => (s, none)
  | none :: rest => apply_manifest applyPrim s rest ns
  | some d :: rest =>
    if d.isEmpty then apply_manifest applyPrim s rest ns
    else
      match forceNamespace ns d with
      | Except.error _ => (s, some ApplyErr.typeErr)
      | Except.ok d2 =>
        match applyPrim s d2 with
        | Except.error e => (s, some (ApplyErr.primErr e))
        | Except.ok s2 => apply_manifest applyPrim s2 rest ns

/-! ## Delete operations (`tooling/phd/kubernetes.py`) -/

/-- Outcome of the underlying Kubernetes API call inside a delete method:
either it returns, or it raises `ApiException` with an HTTP status, or it
raises some other exception. -/
inductive ApiOutcome : Type where
  | success
  | apiException (status : Nat)
  | otherFailure
deriving DecidableEq

/-- `KubernetesClient.delete_service_account`. -/
def delete_service_account (name ns : String) (o : ApiOutcome) : Except String Unit :=
  match o with
  | .success => .ok ()
  | .apiException status =>
    if status ≠ 404 then
      .error ("Failed to delete service account " ++ name ++ " in namespace " ++ ns)
    else .ok ()
  | .otherFailure =>
    .error ("Failed to delete service account " ++ name ++ " in namespace " ++ ns)

/-- `KubernetesClient.delete_secret`. -/
def delete_secret (name ns : String) (o : ApiOutcome) : Except String Unit :=
  match o with
  | .success => .ok ()
  | .apiException status =>
    if status ≠ 404 then
      .error ("Failed to delete secret " ++ name ++ " in namespace " ++ ns)
    else .ok ()
  | .otherFailure =>
    .error ("Failed to delete secret " ++ name ++ " in namespace " ++ ns)

/-- `KubernetesClient.delete_role`. -/
def delete_role (name ns : String) (o : ApiOutcome) : Except String Unit :=
  match o with
  | .success => .ok ()
  | .apiException status =>
    if status ≠ 404 then
      .error ("Failed to delete role " ++ name ++ " in namespace " ++ ns)
    else .ok ()
  | .otherFailure =>
    .error ("Failed to delete role " ++ name ++ " in namespace " ++ ns)

/-- `KubernetesClient.delete_role_binding`. -/
def delete_role_binding (name ns : String) (o : ApiOutcome) : Except String Unit :=
  match o with
  | .success => .ok ()
  | .apiException status =>
    if status ≠ 404 then
      .error ("Failed to delete role binding " ++ name ++ " in namespace " ++ ns)
    else .ok ()
  | .otherFailure =>
    .error ("Failed to delete role binding " ++ name ++ " in namespace " ++ ns)

/-- `KubernetesClient.delete_cluster_role` (cluster-scoped: no namespace). -/
def delete_cluster_role (name : String) (o : ApiOutcome) : Except String Unit :=
  match o with
  | .success => .ok ()
  | .apiException status =>
    if status ≠ 404 then .error ("Failed to delete cluster role " ++ name)
    else .ok ()
  | .otherFailure => .error ("Failed to delete cluster role " ++ name)

/-- `KubernetesClient.delete_cluster_role_binding`. -/
def delete_cluster_role_binding (name : String) (o : ApiOutcome) : Except String Unit :=
  match o with
  | .success => .ok ()
  | .apiException status =>
    if status ≠ 404 then .error ("Failed to delete cluster role binding " ++ name)
    else .ok ()
  | .otherFailure => .error ("Failed to delete cluster role binding " ++ name)

/-! ## Helper lemmas -/

theorem splitOnChar_ne_nil (sep : Char) (l : List Char) : splitOnChar sep l ≠ [] := by
  induction l with
  | nil => simp [splitOnChar]
  | cons c cs ih =>
    by_cases h : c = sep
    · simp [splitOnChar, h]
    · simp only [splitOnChar, if_neg h]
      cases hs : splitOnChar sep cs with
      | nil => simp
      | cons p ps => simp

theorem not_mem_of_mem_splitOnChar (sep : Char) (l piece : List Char)
    (h : piece ∈ splitOnChar sep l) : sep ∉ piece := by
  induction l generalizing piece with
  | nil =>
    simp [splitOnChar] at h
    simp [h]
  | cons c cs ih =>
    by_cases hc : c = sep
    · simp only [splitOnChar, if_pos hc, List.mem_cons] at h
      rcases h with h | h
      · simp [h]
      · exact ih piece h
    · simp only [splitOnChar, if_neg hc] at h
      cases hs : splitOnChar sep cs with
      | nil => exact absurd hs (splitOnChar_ne_nil sep cs)
      | cons p ps =>
        rw [hs] at h
        rcases List.mem_cons.mp h with h1 | h1
        · subst h1
          intro hmem
          rcases List.mem_cons.mp hmem with h2 | h2
          · exact hc h2.symm
          · exact ih p (hs ▸ List.mem_cons_self p ps) h2
        · exact ih piece (hs ▸ List.mem_cons_of_mem p h1)

theorem splitOnChar_of_not_mem (sep : Char) (l : List Char) (h : sep ∉ l) :
    splitOnChar sep l = [l] := by
  induction l with
  | nil => simp [splitOnChar]
  | cons c cs ih =>
    have hc : ¬ c = sep := fun hcc => h (hcc ▸ List.mem_cons_self c cs)
    have hcs : sep ∉ cs := fun hm => h (List.mem_cons_of_mem c hm)
    simp only [splitOnChar, if_neg hc, ih hcs]

theorem splitOnChar_append_sep (sep : Char) (l t : List Char) (h : sep ∉ l) :
    splitOnChar sep (l ++ sep :: t) = l :: splitOnChar sep t := by
  induction l with
  | nil => simp [splitOnChar]
  | cons c cs ih =>
    have hc : ¬ c = sep := fun hcc => h (hcc ▸ List.mem_cons_self c cs)
    have hcs : sep ∉ cs := fun hm => h (List.mem_cons_of_mem c hm)
    simp only [List.cons_append, splitOnChar, if_neg hc, List.append_eq, ih hcs]

theorem splitOnChar_joinChar (sep : Char) (ls : List (List Char)) (h0 : ls ≠ [])
    (h : ∀ l ∈ ls, sep ∉ l) : splitOnChar sep (joinChar sep ls) = ls := by
  induction ls with
  | nil => exact absurd rfl h0
  | cons l rest ih =>
    cases rest with
    | nil =>
      simp only [joinChar]
      exact splitOnChar_of_not_mem sep l (h l (List.mem_cons_self l []))
    | cons l2 rest2 =>
      have hl : sep ∉ l := h l (List.mem_cons_self l (l2 :: rest2))
      have hrest : ∀ x ∈ l2 :: rest2, sep ∉ x :=
        fun x hx => h x (List.mem_cons_of_mem l hx)
      simp only [joinChar, splitOnChar_append_sep sep l _ hl,
        ih (by simp) hrest]

theorem startsWithL_append_self (p t : List Char) : startsWithL p (p ++ t) = true := by
  induction p with
  | nil => simp [startsWithL]
  | cons a as ih => simp [startsWithL, ih]

theorem hasSub_of_startsWithL (n l : List Char) (h : startsWithL n l = true) :
    hasSub n l = true := by
  cases l with
  | nil =>
    cases n with
    | nil => simp [hasSub]
    | cons a as => simp [startsWithL] at h
  | cons c rest => simp [hasSub, h]

theorem takeWhile_prepend (p : Char → Bool) (xs ys : List Char)
    (h : ∀ c ∈ xs, p c = true) : (xs ++ ys).takeWhile p = xs ++ ys.takeWhile p := by
  induction xs with
  | nil => simp
  | cons a as ih =>
    have ha : p a = true := h a (List.mem_cons_self a as)
    simp only [List.cons_append, List.takeWhile_cons, ha, if_pos]
    rw [ih (fun c hc => h c (List.mem_cons_of_mem a hc))]

theorem dropWhile_prepend (p : Char → Bool) (xs ys : List Char)
    (h : ∀ c ∈ xs, p c = true) : (xs ++ ys).dropWhile p = ys.dropWhile p := by
  induction xs with
  | nil => simp
  | cons a as ih =>
    have ha : p a = true := h a (List.mem_cons_self a as)
    simp only [List.cons_append, List.dropWhile_cons, ha, if_pos]
    exact ih (fun c hc => h c (List.mem_cons_of_mem a hc))

theorem dropPre_append (p s : List Char) : dropPre p (p ++ s) = some s := by
  induction p with
  | nil => simp [dropPre]
  | cons a as ih => simp [dropPre, ih]

theorem lookupD_updateD_self (d : List (String × PyVal)) (k : String) (v : PyVal) :
    lookupD (updateD d k v) k = some v := by
  induction d with
  | nil => simp [updateD, lookupD]
  | cons p rest ih =>
    by_cases h : p.1 = k
    · simp [updateD, lookupD, h]
    · simp [updateD, lookupD, h, ih]

theorem lookupD_updateD_ne (d : List (String × PyVal)) (k k2 : String) (v : PyVal)
    (h : k2 ≠ k) : lookupD (updateD d k v) k2 = lookupD d k2 := by
  have hk : ¬ k = k2 := fun hh => h hh.symm
  induction d with
  | nil => simp [updateD, lookupD, hk]
  | cons p rest ih =>
    by_cases hp : p.1 = k
    · simp [updateD, lookupD, hp, hk, ih]
    · by_cases hp2 : p.1 = k2
      · simp [updateD, lookupD, hp, hp2, h]
      · simp [updateD, lookupD, hp, hp2, ih]

theorem updateD_of_lookupD_eq (d : List (String × PyVal)) (k : String) (v : PyVal)
    (h : lookupD d k = some v) : updateD d k v = d := by
  induction d with
  | nil => simp [lookupD] at h
  | cons p rest ih =>
    by_cases hp : p.1 = k
    · cases p with
      | mk k1 v1 =>
        simp only at hp
        subst hp
        have hv : v1 = v := by simpa [lookupD] using h
        subst hv
        simp [updateD]
    · simp only [lookupD, if_neg hp] at h
      simp [updateD, hp, ih h]

theorem keyMem_of_lookupD_some (d : List (String × PyVal)) (k : String) (v : PyVal)
    (h : lookupD d k = some v) : keyMem k d = true := by
  induction d with
  | nil => simp [lookupD] at h
  | cons p rest ih =>
    by_cases hp : p.1 = k
    · simp [keyMem, List.any_cons, hp]
    · simp only [lookupD, if_neg hp] at h
      simp only [keyMem, List.any_cons, Bool.or_eq_true]
      right
      exact ih h

theorem lookupD_none_of_keyMem_false (d : List (String × PyVal)) (k : String)
    (h : keyMem k d = false) : lookupD d k = none := by
  induction d with
  | nil => simp [lookupD]
  | cons p rest ih =>
    simp only [keyMem, List.any_cons, Bool.or_eq_false_iff] at h
    have hp : ¬ p.1 = k := by
      intro hh
      simp [hh] at h
    simp only [lookupD, if_neg hp]
    exact ih (by simpa [keyMem] using h.2)

theorem policyEntry_decomp (s r : List Char) :
    policyEntry s r = subjectToken s ++ ("role:".toList ++ r) := by
  simp only [policyEntry, subjectToken, List.append_assoc]
  rfl

theorem hasSub_policyEntry (s r : List Char) :
    hasSub (subjectToken s) (policyEntry s r) = true := by
  rw [policyEntry_decomp]
  exact hasSub_of_startsWithL _ _ (startsWithL_append_self _ _)

theorem noNl_policyEntry {s r : List Char} (hs : '\n' ∉ s) (hr : '\n' ∉ r) :
    '\n' ∉ policyEntry s r := by
  intro h
  rw [policyEntry_decomp] at h
  rcases List.mem_append.mp h with h1 | h1
  · unfold subjectToken at h1
    rcases List.mem_append.mp h1 with h2 | h2
    · rcases List.mem_append.mp h2 with h3 | h3
      · exact absurd h3 (by decide)
      · exact hs h3
    · exact absurd h2 (by decide)
  · rcases List.mem_append.mp h1 with h2 | h2
    · exact absurd h2 (by decide)
    · exact hr h2

theorem keepLines_sub_false {s : List Char} {lines : List (List Char)} {l : List Char}
    (h : l ∈ keepLines s lines) : hasSub (subjectToken s) l = false := by
  unfold keepLines at h
  have := (List.mem_filter.mp h).2
  simpa using this

theorem keepLines_keepLines (s : List Char) (lines : List (List Char)) :
    keepLines s (keepLines s lines) = keepLines s lines := by
  unfold keepLines
  apply List.filter_eq_self.mpr
  intro a ha
  exact (List.mem_filter.mp ha).2

theorem keepLines_append (s : List Char) (a b : List (List Char)) :
    keepLines s (a ++ b) = keepLines s a ++ keepLines s b := by
  simp [keepLines]

theorem keepLines_entry (s r : List Char) :
    keepLines s [policyEntry s r] = [] := by
  simp [keepLines, hasSub_policyEntry]

theorem splitOnChar_upsert (p s r : List Char) (hs : '\n' ∉ s) (hr : '\n' ∉ r) :
    splitOnChar '\n' (upsert_subject_role p s r) =
      keepLines s (splitOnChar '\n' p) ++ [policyEntry s r] := by
  unfold upsert_subject_role
  apply splitOnChar_joinChar
  · simp
  · intro l hl
    rcases List.mem_append.mp hl with h | h
    · unfold keepLines at h
      exact not_mem_of_mem_splitOnChar '\n' p l (List.mem_of_mem_filter h)
    · have : l = policyEntry s r := by simpa using h
      subst this
      exact noNl_policyEntry hs hr

theorem takeWhile_cons_false (p : Char → Bool) (c : Char) (l : List Char)
    (h : p c = false) : (c :: l).takeWhile p = [] := by
  simp [List.takeWhile_cons, h]

theorem dropWhile_cons_false (p : Char → Bool) (c : Char) (l : List Char)
    (h : p c = false) : (c :: l).dropWhile p = c :: l := by
  simp [List.dropWhile_cons, h]

theorem mem_takeWhile_true (p : Char → Bool) :
    ∀ (l : List Char), ∀ c ∈ l.takeWhile p, p c = true := by
  intro l
  induction l with
  | nil => simp
  | cons a as ih =>
    intro c hc
    by_cases ha : p a = true
    · rw [List.takeWhile_cons, if_pos ha] at hc
      rcases List.mem_cons.mp hc with h | h
      · rw [h]; exact ha
      · exact ih c h
    · rw [List.takeWhile_cons, if_neg ha] at hc
      cases hc

theorem takeWhile_append_drop2 (p : Char → Bool) :
    ∀ (l : List Char), l.takeWhile p ++ l.drop (l.takeWhile p).length = l := by
  intro l
  induction l with
  | nil => rfl
  | cons a as ih =>
    by_cases ha : p a = true
    · rw [List.takeWhile_cons, if_pos ha]
      simpa using ih
    · rw [List.takeWhile_cons, if_neg ha]
      simp

theorem dropPre_eq_some (p : List Char) :
    ∀ (s r : List Char), dropPre p s = some r → s = p ++ r := by
  induction p with
  | nil =>
    intro s r h
    simp only [dropPre, Option.some.injEq] at h
    simp [h]
  | cons a as ih =>
    intro s r h
    cases s with
    | nil => simp [dropPre] at h
    | cons b bs =>
      simp only [dropPre] at h
      by_cases hab : a = b
      · rw [if_pos hab] at h
        rw [List.cons_append, ← ih bs r h, hab]
      · rw [if_neg hab] at h
        cases h

theorem takeWhile_imageKey (X : List Char) :
    (imageKeyChars ++ X).takeWhile isPySpace = [] := by
  rw [show imageKeyChars ++ X = 'i' :: (['m', 'a', 'g', 'e', ':'] ++ X) from rfl]
  exact takeWhile_cons_false _ _ _ (by decide)

theorem dropWhile_imageKey (X : List Char) :
    (imageKeyChars ++ X).dropWhile isPySpace = imageKeyChars ++ X := by
  rw [show imageKeyChars ++ X = 'i' :: (['m', 'a', 'g', 'e', ':'] ++ X) from rfl]
  exact dropWhile_cons_false _ _ _ (by decide)

theorem dropTagOpt_decomp (r : List Char) : ∃ t, r = t ++ dropTagOpt r := by
  cases r with
  | nil => exact ⟨[], rfl⟩
  | cons c rest =>
    by_cases hc : (c = ':' || c = '@') = true
    · by_cases he : (rest.takeWhile (fun d => !isPySpace d && d ≠ '#')).isEmpty = true
      · refine ⟨[], ?_⟩
        simp only [dropTagOpt, hc, if_true, he, List.nil_append]
      · rw [Bool.not_eq_true] at he
        refine ⟨c :: rest.takeWhile (fun d => !isPySpace d && d ≠ '#'), ?_⟩
        simp only [dropTagOpt, hc, if_true, he, Bool.false_eq_true, if_false]
        rw [List.cons_append]
        congr 1
        exact (takeWhile_append_drop2 _ rest).symm
    · rw [Bool.not_eq_true] at hc
      refine ⟨[], ?_⟩
      simp only [dropTagOpt, hc, Bool.false_eq_true, if_false, List.nil_append]

theorem patch_line_match
    (ws1 ws2 ws3 base tag cmt full : List Char) (sep : Char)
    (h1 : ∀ c ∈ ws1, isPySpace c = true)
    (h2 : ∀ c ∈ ws2, isPySpace c = true)
    (h3 : ∀ c ∈ ws3, isPySpace c = true)
    (hb0 : base ≠ [])
    (hb : ∀ c ∈ base, isPySpace c = false)
    (hsep : sep = ':' ∨ sep = '@')
    (ht0 : tag ≠ [])
    (ht : ∀ c ∈ tag, isPySpace c = false ∧ c ≠ '#')
    (hcmt : cmt = [] ∨ ∃ cs, cmt = '#' :: cs) :
    patch_line base full
        (ws1 ++ imageKeyChars ++ ws2 ++ base ++ sep :: (tag ++ ws3 ++ cmt))
      = some (ws1 ++ imageKeyChars ++ ws2 ++ full ++ (ws3 ++ cmt)) := by
  obtain ⟨b0, bs, hbcons⟩ : ∃ b0 bs, base = b0 :: bs := by
    cases base with
    | nil => exact absurd rfl hb0
    | cons b0 bs => exact ⟨b0, bs, rfl⟩
  subst hbcons
  have hb0sp : isPySpace b0 = false := hb b0 (List.mem_cons_self _ _)
  have hline : ws1 ++ imageKeyChars ++ ws2 ++ (b0 :: bs) ++ sep :: (tag ++ ws3 ++ cmt)
      = ws1 ++ (imageKeyChars ++ (ws2 ++ (b0 :: (bs ++ sep :: (tag ++ (ws3 ++ cmt))))))
      := by
    simp [List.append_assoc]
  have hT : tag ++ (ws3 ++ cmt) = tag ++ ws3 ++ cmt := by
    simp [List.append_assoc]
  -- the tag-or-digest group
  have hsepb : (sep = ':' || sep = '@') = true := by
    rcases hsep with h | h <;> simp [h]
  have htagTW : (tag ++ (ws3 ++ cmt)).takeWhile
      (fun d => !isPySpace d && d ≠ '#') = tag := by
    rw [takeWhile_prepend]
    · cases ws3 with
      | cons w ws =>
        rw [List.cons_append, takeWhile_cons_false]
        · rw [List.append_nil]
        · have := h3 w (List.mem_cons_self _ _)
          simp [this]
      | nil =>
        rcases hcmt with h | ⟨cs, h⟩ <;> subst h
        · simp
        · rw [List.nil_append, takeWhile_cons_false]
          · rw [List.append_nil]
          · decide
    · intro c hc
      have := ht c hc
      simp [this.1, this.2]
  have hdt : dropTagOpt (sep :: (tag ++ (ws3 ++ cmt))) = ws3 ++ cmt := by
    simp only [dropTagOpt, hsepb, if_true, htagTW]
    have htne : tag.isEmpty = false := by
      cases tag with
      | nil => exact absurd rfl ht0
      | cons q qs => rfl
    simp only [htne, Bool.false_eq_true, if_false]
    exact List.drop_left tag (ws3 ++ cmt)
  have hso : suffixOk (ws3 ++ cmt) = true := by
    unfold suffixOk
    rw [dropWhile_prepend _ _ _ h3]
    rcases hcmt with h | ⟨cs, h⟩ <;> subst h
    · rfl
    · rw [dropWhile_cons_false _ _ _ (by decide)]
      simp
  -- assemble
  rw [hline]
  unfold patch_line
  rw [takeWhile_prepend _ _ _ h1, dropWhile_prepend _ _ _ h1,
    takeWhile_imageKey, dropWhile_imageKey, List.append_nil]
  simp only [dropPre_append]
  rw [takeWhile_prepend _ _ _ h2, dropWhile_prepend _ _ _ h2,
    takeWhile_cons_false _ _ _ hb0sp, dropWhile_cons_false _ _ _ hb0sp,
    List.append_nil]
  rw [show (b0 :: (bs ++ sep :: (tag ++ (ws3 ++ cmt))))
      = (b0 :: bs) ++ sep :: (tag ++ (ws3 ++ cmt)) from rfl]
  simp only [dropPre_append]
  simp only [hdt, hso, if_true]

theorem patch_line_match_untagged
    (ws1 ws2 ws3 base cmt full : List Char)
    (h1 : ∀ c ∈ ws1, isPySpace c = true)
    (h2 : ∀ c ∈ ws2, isPySpace c = true)
    (h3 : ∀ c ∈ ws3, isPySpace c = true)
    (hb0 : base ≠ [])
    (hb : ∀ c ∈ base, isPySpace c = false)
    (hcmt : cmt = [] ∨ ∃ cs, cmt = '#' :: cs) :
    patch_line base full (ws1 ++ imageKeyChars ++ ws2 ++ base ++ (ws3 ++ cmt))
      = some (ws1 ++ imageKeyChars ++ ws2 ++ full ++ (ws3 ++ cmt)) := by
  obtain ⟨b0, bs, hbcons⟩ : ∃ b0 bs, base = b0 :: bs := by
    cases base with
    | nil => exact absurd rfl hb0
    | cons b0 bs => exact ⟨b0, bs, rfl⟩
  subst hbcons
  have hb0sp : isPySpace b0 = false := hb b0 (List.mem_cons_self _ _)
  have hline : ws1 ++ imageKeyChars ++ ws2 ++ (b0 :: bs) ++ (ws3 ++ cmt)
      = ws1 ++ (imageKeyChars ++ (ws2 ++ (b0 :: (bs ++ (ws3 ++ cmt))))) := by
    simp [List.append_assoc]
  have hdt : dropTagOpt (ws3 ++ cmt) = ws3 ++ cmt := by
    cases ws3 with
    | cons w ws =>
      have hw := h3 w (List.mem_cons_self _ _)
      have hcond : (w = ':' || w = '@') = false := by
        by_cases e1 : w = ':'
        · subst e1
          simp [isPySpace] at hw
        · by_cases e2 : w = '@'
          · subst e2
            simp [isPySpace] at hw
          · simp [e1, e2]
      rw [List.cons_append]
      simp only [dropTagOpt, hcond, Bool.false_eq_true, if_false]
    | nil =>
      rcases hcmt with h | ⟨cs, h⟩ <;> subst h
      · rfl
      · rw [List.nil_append]
        simp only [dropTagOpt]
        rw [if_neg (by decide)]
  have hso : suffixOk (ws3 ++ cmt) = true := by
    unfold suffixOk
    rw [dropWhile_prepend _ _ _ h3]
    rcases hcmt with h | ⟨cs, h⟩ <;> subst h
    · rfl
    · rw [dropWhile_cons_false _ _ _ (by decide)]
      simp
  rw [hline]
  unfold patch_line
  rw [takeWhile_prepend _ _ _ h1, dropWhile_prepend _ _ _ h1,
    takeWhile_imageKey, dropWhile_imageKey, List.append_nil]
  simp only [dropPre_append]
  rw [takeWhile_prepend _ _ _ h2, dropWhile_prepend _ _ _ h2,
    takeWhile_cons_false _ _ _ hb0sp, dropWhile_cons_false _ _ _ hb0sp,
    List.append_nil]
  rw [show (b0 :: (bs ++ (ws3 ++ cmt))) = (b0 :: bs) ++ (ws3 ++ cmt) from rfl]
  simp only [dropPre_append]
  simp only [hdt, hso, if_true]

theorem patch_line_some (base full line out : List Char)
    (h : patch_line base full line = some out) :
    ∃ ws1 ws2 tagod suf,
      (∀ c ∈ ws1, isPySpace c = true) ∧ (∀ c ∈ ws2, isPySpace c = true) ∧
      suffixOk suf = true ∧
      line = ws1 ++ imageKeyChars ++ ws2 ++ base ++ tagod ++ suf ∧
      out = ws1 ++ imageKeyChars ++ ws2 ++ full ++ suf := by
  unfold patch_line at h
  cases hd1 : dropPre imageKeyChars (line.dropWhile isPySpace) with
  | none => simp [hd1] at h
  | some r2 =>
    simp only [hd1] at h
    cases hd2 : dropPre base (r2.dropWhile isPySpace) with
    | none => simp [hd2] at h
    | some r4 =>
      simp only [hd2] at h
      by_cases hok : suffixOk (dropTagOpt r4) = true
      · simp only [hok, if_true, Option.some.injEq] at h
        obtain ⟨tagod, htagod⟩ := dropTagOpt_decomp r4
        refine ⟨line.takeWhile isPySpace, r2.takeWhile isPySpace, tagod,
          dropTagOpt r4, mem_takeWhile_true _ line, mem_takeWhile_true _ r2,
          hok, ?_, ?_⟩
        · have e1 : line = line.takeWhile isPySpace ++ line.dropWhile isPySpace :=
            (List.takeWhile_append_dropWhile isPySpace line).symm
          have e2 : line.dropWhile isPySpace = imageKeyChars ++ r2 :=
            dropPre_eq_some _ _ _ hd1
          have e3 : r2 = r2.takeWhile isPySpace ++ r2.dropWhile isPySpace :=
            (List.takeWhile_append_dropWhile isPySpace r2).symm
          have e4 : r2.dropWhile isPySpace = base ++ r4 :=
            dropPre_eq_some _ _ _ hd2
          conv_lhs => rw [e1, e2, e3, e4, htagod]
          simp [List.append_assoc]
        · exact h.symm
      · rw [Bool.not_eq_true] at hok
        simp [hok] at h

theorem mergeDicts_lookupD_of_not_mem :
    ∀ (src d C : List (String × PyVal)) (k : String),
      mergeDicts d src = Except.ok C → keyMem k src = false →
      lookupD C k = lookupD d k := by
  intro src
  induction src with
  | nil =>
    intro d C k h _
    simp only [mergeDicts, Except.ok.injEq] at h
    rw [h]
  | cons p rest ih =>
    intro d C k h hk
    cases p with
    | mk k1 v =>
      simp only [keyMem, List.any_cons, Bool.or_eq_false_iff,
        decide_eq_false_iff_not] at hk
      have hk1 : ¬ k1 = k := hk.1
      have hkrest : keyMem k rest = false := by
        simp only [keyMem]
        exact hk.2
      have hne : k ≠ k1 := fun hh => hk1 hh.symm
      cases v with
      | atom a =>
        simp only [mergeDicts] at h
        rw [ih _ _ _ h hkrest, lookupD_updateD_ne _ _ _ _ hne]
      | dict sd =>
        simp only [mergeDicts] at h
        cases hl : lookupD d k1 with
        | none =>
          simp only [hl] at h
          rw [ih _ _ _ h hkrest, lookupD_updateD_ne _ _ _ _ hne]
        | some v1 =>
          simp only [hl] at h
          cases hm : mergeVal v1 sd with
          | error e => simp [hm] at h
          | ok m =>
            simp only [hm] at h
            rw [ih _ _ _ h hkrest, lookupD_updateD_ne _ _ _ _ hne]

theorem mergeDicts_absorb :
    ∀ (n : Nat) (src : List (String × PyVal)), sizeOf src ≤ n → WFd src = true →
      ∀ d : List (String × PyVal),
        (∀ k v, lookupD src k = some v → lookupD d k = some v) →
        mergeDicts d src = Except.ok d := by
  intro n
  induction n with
  | zero =>
    intro src hsz
    exfalso
    cases src <;> simp at hsz
  | succ n ih =>
    intro src hsz hwf d hsub
    cases src with
    | nil => simp [mergeDicts]
    | cons p rest =>
      cases p with
      | mk k v =>
        have hc := List.cons.sizeOf_spec (k, v) rest
        have hp := Prod.mk.sizeOf_spec k v
        have hszrest : sizeOf rest ≤ n := by omega
        simp only [WFd, Bool.and_eq_true, Bool.not_eq_true'] at hwf
        have hkrest : keyMem k rest = false := hwf.1.1
        have hwfv : WFv v = true := hwf.1.2
        have hwfrest : WFd rest = true := hwf.2
        have hlk : lookupD d k = some v := hsub k v (by simp [lookupD])
        have htail : ∀ k2 v2, lookupD rest k2 = some v2 → lookupD d k2 = some v2 := by
          intro k2 v2 hl2
          have hne : ¬ k = k2 := by
            intro hh
            subst hh
            have := keyMem_of_lookupD_some _ _ _ hl2
            rw [hkrest] at this
            cases this
          apply hsub
          simp [lookupD, hne, hl2]
        cases v with
        | atom a =>
          simp only [mergeDicts]
          rw [updateD_of_lookupD_eq _ _ _ hlk]
          exact ih rest hszrest hwfrest d htail
        | dict sd =>
          have hd := PyVal.dict.sizeOf_spec sd
          have hszsd : sizeOf sd ≤ n := by omega
          have hwfsd : WFd sd = true := by simpa [WFv] using hwfv
          have hself : mergeDicts sd sd = Except.ok sd :=
            ih sd hszsd hwfsd sd (fun _ _ h2 => h2)
          simp only [mergeDicts, hlk, mergeVal, hself, Except.map]
          rw [updateD_of_lookupD_eq _ _ _ hlk]
          exact ih rest hszrest hwfrest d htail

theorem mergeDicts_idem_aux :
    ∀ (n : Nat) (src : List (String × PyVal)), sizeOf src ≤ n → WFd src = true →
      ∀ d C, mergeDicts d src = Except.ok C → mergeDicts C src = Except.ok C := by
  intro n
  induction n with
  | zero =>
    intro src hsz
    exfalso
    cases src <;> simp at hsz
  | succ n ih =>
    intro src hsz hwf d C h
    cases src with
    | nil =>
      simp only [mergeDicts, Except.ok.injEq] at h
      simp [mergeDicts, h]
    | cons p rest =>
      cases p with
      | mk k v =>
        have hc := List.cons.sizeOf_spec (k, v) rest
        have hp := Prod.mk.sizeOf_spec k v
        have hszrest : sizeOf rest ≤ n := by omega
        simp only [WFd, Bool.and_eq_true, Bool.not_eq_true'] at hwf
        have hkrest : keyMem k rest = false := hwf.1.1
        have hwfv : WFv v = true := hwf.1.2
        have hwfrest : WFd rest = true := hwf.2
        cases v with
        | atom a =>
          simp only [mergeDicts] at h ⊢
          have hC : lookupD C k = some (PyVal.atom a) := by
            rw [mergeDicts_lookupD_of_not_mem rest _ C k h hkrest]
            exact lookupD_updateD_self _ _ _
          rw [updateD_of_lookupD_eq _ _ _ hC]
          exact ih rest hszrest hwfrest _ _ h
        | dict sd =>
          have hd := PyVal.dict.sizeOf_spec sd
          have hszsd : sizeOf sd ≤ n := by omega
          have hwfsd : WFd sd = true := by simpa [WFv] using hwfv
          simp only [mergeDicts] at h ⊢
          cases hl : lookupD d k with
          | none =>
            simp only [hl] at h
            have hC : lookupD C k = some (PyVal.dict sd) := by
              rw [mergeDicts_lookupD_of_not_mem rest _ C k h hkrest]
              exact lookupD_updateD_self _ _ _
            have hself : mergeDicts sd sd = Except.ok sd :=
              mergeDicts_absorb (sizeOf sd) sd le_rfl hwfsd sd (fun _ _ h2 => h2)
            simp only [hC, mergeVal, hself, Except.map]
            rw [updateD_of_lookupD_eq _ _ _ hC]
            exact ih rest hszrest hwfrest _ _ h
          | some v1 =>
            simp only [hl] at h
            cases hm : mergeVal v1 sd with
            | error e => simp [hm] at h
            | ok m =>
              simp only [hm] at h
              have hC : lookupD C k = some m := by
                rw [mergeDicts_lookupD_of_not_mem rest _ C k h hkrest]
                exact lookupD_updateD_self _ _ _
              have hm2 : mergeVal m sd = Except.ok m := by
                cases v1 with
                | atom a =>
                  cases hsd : sd with
                  | nil =>
                    rw [hsd] at hm
                    simp only [mergeVal, List.isEmpty_nil, if_pos,
                      Except.ok.injEq] at hm
                    rw [← hm]
                    simp [mergeVal]
                  | cons q qs =>
                    rw [hsd] at hm
                    simp [mergeVal] at hm
                | dict d1 =>
                  simp only [mergeVal] at hm
                  cases hmd : mergeDicts d1 sd with
                  | error e =>
                    rw [hmd] at hm
                    simp [Except.map] at hm
                  | ok m1 =>
                    rw [hmd] at hm
                    simp only [Except.map, Except.ok.injEq] at hm
                    have hm1 : mergeDicts m1 sd = Except.ok m1 :=
                      ih sd hszsd hwfsd _ _ hmd
                    rw [← hm]
                    simp [mergeVal, hm1, Except.map]
              simp only [hC, hm2]
              rw [updateD_of_lookupD_eq _ _ _ hC]
              exact ih rest hszrest hwfrest _ _ h

theorem compatD_updateD_of_not_mem :
    ∀ (src d : List (String × PyVal)) (k : String) (m : PyVal),
      keyMem k src = false → compatD (updateD d k m) src = compatD d src := by
  intro src
  induction src with
  | nil => intro d k m _; simp [compatD]
  | cons p rest ih =>
    intro d k m hk
    cases p with
    | mk k2 v =>
      simp only [keyMem, List.any_cons, Bool.or_eq_false_iff,
        decide_eq_false_iff_not] at hk
      have hk2 : ¬ k2 = k := hk.1
      have hkrest : keyMem k rest = false := by
        simp only [keyMem]
        exact hk.2
      cases v with
      | atom a =>
        simp only [compatD]
        rw [ih d k m hkrest]
      | dict sd =>
        simp only [compatD]
        rw [ih d k m hkrest, lookupD_updateD_ne d k k2 m hk2]

theorem mergeDicts_total_aux :
    ∀ (n : Nat) (src : List (String × PyVal)), sizeOf src ≤ n → WFd src = true →
      ∀ d, compatD d src = true → ∃ C, mergeDicts d src = Except.ok C := by
  intro n
  induction n with
  | zero =>
    intro src hsz
    exfalso
    cases src <;> simp at hsz
  | succ n ih =>
    intro src hsz hwf d hcompat
    cases src with
    | nil => exact ⟨d, by simp [mergeDicts]⟩
    | cons p rest =>
      cases p with
      | mk k v =>
        have hc := List.cons.sizeOf_spec (k, v) rest
        have hp := Prod.mk.sizeOf_spec k v
        have hszrest : sizeOf rest ≤ n := by omega
        simp only [WFd, Bool.and_eq_true, Bool.not_eq_true'] at hwf
        have hkrest : keyMem k rest = false := hwf.1.1
        have hwfv : WFv v = true := hwf.1.2
        have hwfrest : WFd rest = true := hwf.2
        cases v with
        | atom a =>
          simp only [compatD, Bool.true_and] at hcompat
          simp only [mergeDicts]
          apply ih rest hszrest hwfrest
          rw [compatD_updateD_of_not_mem rest d k _ hkrest]
          exact hcompat
        | dict sd =>
          simp only [compatD, Bool.and_eq_true] at hcompat
          have hcrest : compatD d rest = true := hcompat.2
          have hd := PyVal.dict.sizeOf_spec sd
          have hszsd : sizeOf sd ≤ n := by omega
          have hwfsd : WFd sd = true := by simpa [WFv] using hwfv
          cases hl : lookupD d k with
          | none =>
            simp only [mergeDicts, hl]
            apply ih rest hszrest hwfrest
            rw [compatD_updateD_of_not_mem rest d k _ hkrest]
            exact hcrest
          | some v1 =>
            have hcv : compatV v1 sd = true := by
              have := hcompat.1
              rw [hl] at this
              exact this
            cases v1 with
            | atom a =>
              have hsd : sd.isEmpty = true := by simpa [compatV] using hcv
              simp only [mergeDicts, hl, mergeVal, hsd, if_true]
              apply ih rest hszrest hwfrest
              rw [compatD_updateD_of_not_mem rest d k _ hkrest]
              exact hcrest
            | dict d1 =>
              have hcd : compatD d1 sd = true := by simpa [compatV] using hcv
              obtain ⟨m, hm⟩ := ih sd hszsd hwfsd d1 hcd
              simp only [mergeDicts, hl, mergeVal, hm, Except.map]
              apply ih rest hszrest hwfrest
              rw [compatD_updateD_of_not_mem rest d k _ hkrest]
              exact hcrest

/-! ## Claim theorems -/

/--
C1: `compute_full_image(name, tag)` returns `name` unchanged when `name`
contains `@`; otherwise returns `name` unchanged when the last
`/`-separated segment of `name` contains `:` (a colon in an earlier
segment, such as a registry port, does not count, so
`registry:5000/app` with tag `v1` yields `registry:5000/app:v1`);
otherwise, for a non-empty tag, returns `name + ":" + tag`; and fails when
`name` has no tag or digest and `tag` is empty.
-/
theorem C1_compute_full_image :
    (∀ name tag : String,
      (containsChar '@' name.toList = true →
        compute_full_image name tag = Except.ok name) ∧
      (containsChar '@' name.toList = false →
        containsChar ':' (lastPiece (splitOnChar '/' name.toList)) = true →
        compute_full_image name tag = Except.ok name) ∧
      (containsChar '@' name.toList = false →
        containsChar ':' (lastPiece (splitOnChar '/' name.toList)) = false →
        tag ≠ "" →
        compute_full_image name tag = Except.ok (name ++ ":" ++ tag)) ∧
      (containsChar '@' name.toList = false →
        containsChar ':' (lastPiece (splitOnChar '/' name.toList)) = false →
        tag = "" →
        ∃ e, compute_full_image name tag = Except.error e)) ∧
    compute_full_image "registry:5000/app" "v1" = Except.ok "registry:5000/app:v1" := by
  constructor
  · intro name tag
    refine ⟨?_, ?_, ?_, ?_⟩
    · intro h1
      have h1d : containsChar '@' name.data = true := h1
      simp [compute_full_image, h1d]
    · intro h1 h2
      have h1d : containsChar '@' name.data = false := h1
      have h2d : containsChar ':' (lastPiece (splitOnChar '/' name.data)) = true := h2
      simp [compute_full_image, h1d, h2d]
    · intro h1 h2 h3
      have h1d : containsChar '@' name.data = false := h1
      have h2d : containsChar ':' (lastPiece (splitOnChar '/' name.data)) = false := h2
      simp [compute_full_image, h1d, h2d, h3]
    · intro h1 h2 h3
      have h1d : containsChar '@' name.data = false := h1
      have h2d : containsChar ':' (lastPiece (splitOnChar '/' name.data)) = false := h2
      refine ⟨"--image-tag must be provided when --image-name has no tag", ?_⟩
      simp [compute_full_image, h1d, h2d, h3]
  · rfl

/-- Witness for C1 at concrete inputs. -/
theorem C1_compute_full_image_witness :
    (∃ e, compute_full_image "repo/app" "" = Except.error e) ∧
    compute_full_image "repo/app" "v1" = Except.ok ("repo/app" ++ ":" ++ "v1") := by
  constructor
  · exact (C1_compute_full_image.1 "repo/app" "").2.2.2 (by rfl) (by rfl) rfl
  · exact (C1_compute_full_image.1 "repo/app" "v1").2.2.1 (by rfl) (by rfl) (by decide)

/--
C6: `sanitize_username` lowercases, replaces characters outside
`[a-z0-9.-]` with `-`, collapses `-` and `.` runs, trims leading/trailing
`-`/`.`, and fails exactly when the result is empty; in particular
`sanitize_username("User@Example.com") = "user-example.com"` and
`sanitize_username("@@@@")` fails.  The non-ASCII lowercase mappings that
reach `[a-z0-9.-]` are honored: U+212A KELVIN SIGN sanitizes to `k` and
`İsmail` to `i-smail` (U+0130 lowercases to `i` plus a combining dot).
-/
theorem C6_sanitize_username :
    sanitize_username "User@Example.com" = Except.ok "user-example.com" ∧
    sanitize_username "@@@@" =
      Except.error "Username cannot be sanitized to a non-empty string" ∧
    sanitize_username "K" = Except.ok "k" ∧
    sanitize_username "\u0130smail" = Except.ok "i-smail" ∧
    ∀ u : String,
      (∃ e, sanitize_username u = Except.error e) ↔ sanitizePipeline u.toList = [] := by
  refine ⟨by rfl, by rfl, by rfl, by rfl, ?_⟩
  intro u
  unfold sanitize_username
  by_cases h : sanitizePipeline u.toList = []
  · have hd : sanitizePipeline u.data = [] := h
    simp [h, hd]
  · have hd : ¬ sanitizePipeline u.data = [] := h
    simp [h, hd]

/--
C2 counterexample: when `dst[key]` is a non-mapping and `src[key]` is a
(non-empty) mapping, the claim says `dst[key]` is overwritten with
`src[key]`; the code instead recurses into
`merge_dicts(dst[key], src[key])` because its guard only tests
`key in dict1`, and the loop body then performs an item assignment on the
non-dict, raising `TypeError` rather than overwriting.
-/
theorem C2_counterexample :
    mergeDicts [("a", PyVal.atom "5")] [("a", PyVal.dict [("b", PyVal.atom "1")])]
      = Except.error () ∧
    claimMergeDicts [("a", PyVal.atom "5")] [("a", PyVal.dict [("b", PyVal.atom "1")])]
      = [("a", PyVal.dict [("b", PyVal.atom "1")])] := by
  constructor
  · simp [mergeDicts, mergeVal, lookupD, updateD]
  · simp [claimMergeDicts, lookupD, updateD]

/--
C2 (amended): `merge(dst, src)` processes every key of `src` in order; when
`src[key]` is a mapping and `key` exists in `dst` — whether or not
`dst[key]` is a mapping — the merge recurses into
`merge(dst[key], src[key])`: for a mapping `dst[key]` this deep-merges, for
a non-mapping `dst[key]` it raises `TypeError` when `src[key]` is non-empty
and leaves `dst[key]` unchanged when `src[key]` is empty; when `key` is
absent from `dst` or `src[key]` is a non-mapping, `dst[key]` is overwritten
with `src[key]`.  No error is raised when no key of `src` (recursively)
maps a non-empty mapping onto an existing non-mapping value.
-/
theorem C2_amended_merge :
    (∀ (d rest : List (String × PyVal)) (k : String) (v : PyVal),
      mergeDicts d ((k, v) :: rest) =
        (match v, lookupD d k with
         | PyVal.dict sd, some (PyVal.dict d1) =>
           (match mergeDicts d1 sd with
            | Except.ok m => mergeDicts (updateD d k (PyVal.dict m)) rest
            | Except.error e => Except.error e)
         | PyVal.dict sd, some (PyVal.atom a) =>
           if sd.isEmpty then mergeDicts (updateD d k (PyVal.atom a)) rest
           else Except.error ()
         | PyVal.dict sd, none => mergeDicts (updateD d k (PyVal.dict sd)) rest
         | PyVal.atom a, _ => mergeDicts (updateD d k (PyVal.atom a)) rest)) ∧
    (∀ src : List (String × PyVal), WFd src = true →
      ∀ d, compatD d src = true → ∃ C, mergeDicts d src = Except.ok C) := by
  constructor
  · intro d rest k v
    cases v with
    | atom a => simp only [mergeDicts]
    | dict sd =>
      cases hl : lookupD d k with
      | none => simp only [mergeDicts, hl]
      | some v1 =>
        cases v1 with
        | atom a =>
          simp only [mergeDicts, hl, mergeVal]
          by_cases hsd : sd.isEmpty <;> simp [hsd]
        | dict d1 =>
          simp only [mergeDicts, hl, mergeVal]
          cases hm : mergeDicts d1 sd with
          | ok m => simp [Except.map]
          | error e => simp [Except.map]
  · intro src hwf d hcompat
    exact mergeDicts_total_aux (sizeOf src) src le_rfl hwf d hcompat

/-- Witness for C2 (amended) at a concrete input. -/
theorem C2_amended_merge_witness :
    ∃ C, mergeDicts [("a", PyVal.dict [])]
      [("a", PyVal.dict [("b", PyVal.atom "1")])] = Except.ok C :=
  C2_amended_merge.2 [("a", PyVal.dict [("b", PyVal.atom "1")])]
    (by simp [WFd, WFv, keyMem])
    [("a", PyVal.dict [])]
    (by simp [compatD, compatV, lookupD])

/--
C5: for all well-formed configuration dicts for which the merge succeeds,
re-applying the merge with the same second argument is a no-op:
`merge(merge(A, B), B) = merge(A, B)`.
-/
theorem C5_merge_reapply_noop :
    ∀ (A B C : List (String × PyVal)), WFd B = true →
      mergeDicts A B = Except.ok C → mergeDicts C B = Except.ok C := by
  intro A B C hwf h
  exact mergeDicts_idem_aux (sizeOf B) B le_rfl hwf A C h

/-- Witness for C5 at concrete inputs. -/
theorem C5_merge_reapply_noop_witness :
    mergeDicts
        [("x", PyVal.atom "1"),
         ("n", PyVal.dict [("a", PyVal.atom "3"), ("b", PyVal.atom "4")]),
         ("y", PyVal.atom "5")]
        [("n", PyVal.dict [("a", PyVal.atom "3"), ("b", PyVal.atom "4")]),
         ("y", PyVal.atom "5")]
      = Except.ok
        [("x", PyVal.atom "1"),
         ("n", PyVal.dict [("a", PyVal.atom "3"), ("b", PyVal.atom "4")]),
         ("y", PyVal.atom "5")] :=
  C5_merge_reapply_noop
    [("x", PyVal.atom "1"), ("n", PyVal.dict [("a", PyVal.atom "2")])]
    [("n", PyVal.dict [("a", PyVal.atom "3"), ("b", PyVal.atom "4")]),
     ("y", PyVal.atom "5")]
    _
    (by simp [WFd, WFv, keyMem])
    (by simp [mergeDicts, mergeVal, lookupD, updateD, Except.map])

/--
C3 counterexample: the claim says the dropped lines are those containing
`", " + subject + ", "` (comma-space on both sides); the code drops the
lines containing `"g, " + subject + ", "`.  On the policy line
`p, alice, x` with subject `alice` the two filters disagree: the code
keeps the line, the claim's filter would drop it.
-/
theorem C3_counterexample :
    upsert_subject_role "p, alice, x".toList "alice".toList "admin".toList
      = "p, alice, x\ng, alice, role:admin".toList ∧
    claim_upsert_subject_role "p, alice, x".toList "alice".toList "admin".toList
      = "g, alice, role:admin".toList ∧
    upsert_subject_role "p, alice, x".toList "alice".toList "admin".toList ≠
      claim_upsert_subject_role "p, alice, x".toList "alice".toList "admin".toList ∧
    remove_subject "p, alice, x".toList "alice".toList ≠
      claim_remove_subject "p, alice, x".toList "alice".toList := by
  refine ⟨by decide, by decide, by decide, by decide⟩

/--
C3 (amended): `upsert_subject_role(policy_text, subject, role)` splits on
newline, drops every line containing `"g, " + subject + ", "`, appends
`"g, " + subject + ", role:" + role`, and rejoins; `remove_subject` applies
the same filter without appending.  At line level, when subject and role
contain no newline, the lines of the upsert result are exactly the kept
lines followed by the new grant line.
-/
theorem C3_amended_policy_editor :
    (∀ policy subject role : List Char,
      upsert_subject_role policy subject role =
        joinChar '\n'
          ((splitOnChar '\n' policy).filter
            (fun l => !(hasSub ("g, ".toList ++ subject ++ ", ".toList) l))
           ++ ["g, ".toList ++ subject ++ ", role:".toList ++ role])) ∧
    (∀ policy subject : List Char,
      remove_subject policy subject =
        joinChar '\n'
          ((splitOnChar '\n' policy).filter
            (fun l => !(hasSub ("g, ".toList ++ subject ++ ", ".toList) l)))) ∧
    (∀ policy subject role : List Char, '\n' ∉ subject → '\n' ∉ role →
      splitOnChar '\n' (upsert_subject_role policy subject role) =
        keepLines subject (splitOnChar '\n' policy) ++ [policyEntry subject role]) := by
  refine ⟨fun p s r => rfl, fun p s => rfl,
    fun p s r hs hr => splitOnChar_upsert p s r hs hr⟩

/-- Witness for C3 (amended) at concrete inputs. -/
theorem C3_amended_policy_editor_witness :
    splitOnChar '\n'
        (upsert_subject_role "g, bob, role:admin".toList "alice".toList "developer".toList)
      = keepLines "alice".toList (splitOnChar '\n' "g, bob, role:admin".toList)
        ++ [policyEntry "alice".toList "developer".toList] :=
  C3_amended_policy_editor.2.2 "g, bob, role:admin".toList "alice".toList
    "developer".toList (by decide) (by decide)

/--
C4 counterexample: with a subject containing a newline, re-running the
upsert duplicates the grant line instead of being idempotent, so the claim
fails when quantified over every subject string.
-/
theorem C4_counterexample :
    upsert_subject_role
        (upsert_subject_role [] "a\nb".toList "r".toList) "a\nb".toList "r".toList
      ≠ upsert_subject_role [] "a\nb".toList "r".toList := by
  decide

/--
C4 (amended): for every policy text and every subject and role free of
newline characters (every sanitized subject and every valid role is),
applying `upsert_subject_role` twice with the same `(subject, role)` equals
applying it once, and the resulting policy contains exactly one line
carrying the subject's grant token.
-/
theorem C4_amended_upsert_idempotent :
    ∀ policy subject role : List Char, '\n' ∉ subject → '\n' ∉ role →
      upsert_subject_role (upsert_subject_role policy subject role) subject role
        = upsert_subject_role policy subject role ∧
      (splitOnChar '\n' (upsert_subject_role policy subject role)).countP
        (fun l => hasSub (subjectToken subject) l) = 1 := by
  intro p s r hs hr
  have hsplit := splitOnChar_upsert p s r hs hr
  constructor
  · conv_lhs => rw [upsert_subject_role]
    rw [hsplit, keepLines_append, keepLines_keepLines, keepLines_entry,
      List.append_nil]
    rfl
  · rw [hsplit, List.countP_append]
    have h0 : (keepLines s (splitOnChar '\n' p)).countP
        (fun l => hasSub (subjectToken s) l) = 0 := by
      rw [List.countP_eq_zero]
      intro l hl
      simp [keepLines_sub_false hl]
    rw [h0]
    simp [List.countP_cons, hasSub_policyEntry]

/-- Witness for C4 (amended) at concrete inputs. -/
theorem C4_amended_upsert_idempotent_witness :
    upsert_subject_role
        (upsert_subject_role "g, bob, role:admin".toList "alice".toList "developer".toList)
        "alice".toList "developer".toList
      = upsert_subject_role "g, bob, role:admin".toList "alice".toList "developer".toList :=
  (C4_amended_upsert_idempotent "g, bob, role:admin".toList "alice".toList
    "developer".toList (by decide) (by decide)).1

/--
C9: the workflow wait returns `true` exactly when both external commands
succeed and the stripped phase is `Succeeded` (so it returns `false`, and
does not raise, on a wait timeout, a non-zero wait exit, or a terminal
phase other than `Succeeded`); and the orchestrator raises exactly when at
least one workflow wait returned `false`.
-/
theorem C9_workflow_wait :
    (∀ waitRes getRes : CmdResult,
      wait_for_workflow_completion waitRes getRes = true ↔
        ∃ w out, waitRes = CmdResult.ok w ∧ getRes = CmdResult.ok out ∧
          pyStrip out = "Succeeded") ∧
    (∀ results : List Bool,
      (∃ e, create_provision_workflows_outcome results = Except.error e) ↔
        false ∈ results) := by
  constructor
  · intro waitRes getRes
    cases waitRes with
    | failed => simp [wait_for_workflow_completion]
    | ok w =>
      cases getRes with
      | failed => simp [wait_for_workflow_completion]
      | ok out =>
        simp only [wait_for_workflow_completion]
        constructor
        · intro h
          exact ⟨w, out, rfl, rfl, by simpa using h⟩
        · rintro ⟨w2, out2, h1, h2, h3⟩
          cases h2
          simpa using h3
  · intro results
    have hfold : ∀ (l : List Bool) (acc : Bool),
        l.foldl (fun a r => if !r then false else a) acc = (acc && l.all id) := by
      intro l
      induction l with
      | nil => intro acc; simp
      | cons r t ih =>
        intro acc
        rw [List.foldl_cons, ih]
        cases r <;> cases acc <;> simp
    unfold create_provision_workflows_outcome aggregate_all_succeeded
    rw [hfold]
    by_cases hall : results.all id
    · simp only [hall, Bool.and_true, if_pos]
      simp only [List.all_eq_true, id] at hall
      constructor
      · rintro ⟨e, he⟩
        simp at he
      · intro hmem
        exact absurd (hall false hmem) (by simp)
    · simp only [Bool.true_and, hall, if_neg, Bool.false_eq_true, not_false_eq_true]
      constructor
      · intro _
        rcases List.all_eq_false.mp (Bool.eq_false_iff.mpr hall) with ⟨x, hx, hpx⟩
        cases x
        · exact hx
        · simp at hpx
      · intro _
        exact ⟨_, rfl⟩

/--
C7: `patch_env` rewrites, in every `.yml`/`.yaml` file, exactly the lines
whose image token is the literal old image (optionally followed by a tag
or digest), preserving indentation and trailing comment, and returns the
count and list of modified files; it never touches a line whose image
merely shares a suffix with the old image.  Conjuncts: the end-to-end
scenario from the spec; an untagged image line is rewritten too; a
suffix-sharing line is untouched; every line of the matched shape —
tagged-or-digested or bare — is rewritten with prefix and suffix
preserved; and every rewritten line had the matched shape (old token
replaced, prefix and suffix preserved).
-/
theorem C7_patch_env_rewrites :
    (patch_env [("env/deploy.yml", ["image: repo/app:v1  # comment".toList])]
        "repo/app" "v2"
      = Except.ok ((1, ["env/deploy.yml"]),
          [("env/deploy.yml", ["image: repo/app:v2  # comment".toList])])) ∧
    (patch_line "repo/app".toList "repo/app:v2".toList
        "image: repo/app".toList = some "image: repo/app:v2".toList) ∧
    (patch_line "repo/app".toList "repo/app:v2".toList
        "  image: xrepo/app:v1".toList = none) ∧
    (∀ (ws1 ws2 ws3 base cmt full : List Char),
      (∀ c ∈ ws1, isPySpace c = true) →
      (∀ c ∈ ws2, isPySpace c = true) →
      (∀ c ∈ ws3, isPySpace c = true) →
      base ≠ [] →
      (∀ c ∈ base, isPySpace c = false) →
      (cmt = [] ∨ ∃ cs, cmt = '#' :: cs) →
      patch_line base full
          (ws1 ++ imageKeyChars ++ ws2 ++ base ++ (ws3 ++ cmt))
        = some (ws1 ++ imageKeyChars ++ ws2 ++ full ++ (ws3 ++ cmt))) ∧
    (∀ (ws1 ws2 ws3 base tag cmt full : List Char) (sep : Char),
      (∀ c ∈ ws1, isPySpace c = true) →
      (∀ c ∈ ws2, isPySpace c = true) →
      (∀ c ∈ ws3, isPySpace c = true) →
      base ≠ [] →
      (∀ c ∈ base, isPySpace c = false) →
      sep = ':' ∨ sep = '@' →
      tag ≠ [] →
      (∀ c ∈ tag, isPySpace c = false ∧ c ≠ '#') →
      (cmt = [] ∨ ∃ cs, cmt = '#' :: cs) →
      patch_line base full
          (ws1 ++ imageKeyChars ++ ws2 ++ base ++ sep :: (tag ++ ws3 ++ cmt))
        = some (ws1 ++ imageKeyChars ++ ws2 ++ full ++ (ws3 ++ cmt))) ∧
    (∀ base full line out : List Char,
      patch_line base full line = some out →
      ∃ ws1 ws2 tagod suf,
        (∀ c ∈ ws1, isPySpace c = true) ∧ (∀ c ∈ ws2, isPySpace c = true) ∧
        suffixOk suf = true ∧
        line = ws1 ++ imageKeyChars ++ ws2 ++ base ++ tagod ++ suf ∧
        out = ws1 ++ imageKeyChars ++ ws2 ++ full ++ suf) := by
  refine ⟨by rfl, by rfl, by rfl, ?_, ?_, ?_⟩
  · intro ws1 ws2 ws3 base cmt full hh1 hh2 hh3 hhb0 hhb hhcmt
    exact patch_line_match_untagged ws1 ws2 ws3 base cmt full
      hh1 hh2 hh3 hhb0 hhb hhcmt
  · intro ws1 ws2 ws3 base tag cmt full sep hh1 hh2 hh3 hhb0 hhb hhsep hht0 hht hhcmt
    exact patch_line_match ws1 ws2 ws3 base tag cmt full sep
      hh1 hh2 hh3 hhb0 hhb hhsep hht0 hht hhcmt
  · intro base full line out h
    exact patch_line_some base full line out h

/-- Witness for C7 at concrete inputs: a tagged-with-comment line and a
bare untagged line. -/
theorem C7_patch_env_rewrites_witness :
    (patch_line "repo/app".toList "repo/app:v2".toList
        ([' '] ++ imageKeyChars ++ [' '] ++ "repo/app".toList
          ++ ':' :: ("v1".toList ++ [' '] ++ "# x".toList))
      = some ([' '] ++ imageKeyChars ++ [' '] ++ "repo/app:v2".toList
          ++ ([' '] ++ "# x".toList))) ∧
    (patch_line "repo/app".toList "repo/app:v2".toList
        ([' '] ++ imageKeyChars ++ [' '] ++ "repo/app".toList ++ ([] ++ []))
      = some ([' '] ++ imageKeyChars ++ [' '] ++ "repo/app:v2".toList
          ++ ([] ++ []))) :=
  ⟨C7_patch_env_rewrites.2.2.2.2.1 [' '] [' '] [' '] "repo/app".toList
      "v1".toList "# x".toList "repo/app:v2".toList ':'
      (by decide) (by decide) (by decide) (by decide) (by decide)
      (Or.inl rfl) (by decide) (by decide) (Or.inr ⟨" x".toList, rfl⟩),
   C7_patch_env_rewrites.2.2.2.1 [' '] [' '] [] "repo/app".toList []
      "repo/app:v2".toList
      (by decide) (by decide) (by decide) (by decide) (by decide)
      (Or.inl rfl)⟩

/--
C8: `apply_manifest` skips empty documents, forces `metadata.namespace` to
the target namespace on every document it applies, and applies the
documents independently in order; it is not atomic: when a document fails,
the effects of the previously applied documents persist (the state reached
so far is returned unchanged) and the failure is raised to the caller,
with the remaining documents never applied.
-/
theorem C8_apply_manifest :
    (∀ {σ ε : Type} (prim : σ → List (String × PyVal) → Except ε σ) (s : σ)
        (docs : List (Option (List (String × PyVal)))) (ns : String),
      apply_manifest prim s (none :: docs) ns = apply_manifest prim s docs ns ∧
      apply_manifest prim s (some [] :: docs) ns = apply_manifest prim s docs ns) ∧
    (∀ (ns : String) (d d2 : List (String × PyVal)),
      forceNamespace ns d = Except.ok d2 →
      ∃ m, lookupD d2 "metadata" = some (PyVal.dict m) ∧
        lookupD m "namespace" = some (PyVal.atom ns)) ∧
    (∀ {σ ε : Type} (prim : σ → List (String × PyVal) → Except ε σ) (s s1 : σ)
        (pre rest : List (Option (List (String × PyVal))))
        (d d2 : List (String × PyVal)) (ns : String) (e : ε),
      apply_manifest prim s pre ns = (s1, none) →
      d ≠ [] →
      forceNamespace ns d = Except.ok d2 →
      prim s1 d2 = Except.error e →
      apply_manifest prim s (pre ++ some d :: rest) ns
        = (s1, some (ApplyErr.primErr e))) := by
  have happend : ∀ {σ ε : Type} (prim : σ → List (String × PyVal) → Except ε σ)
      (pre suf : List (Option (List (String × PyVal)))) (ns : String) (s : σ),
      apply_manifest prim s (pre ++ suf) ns =
        (match apply_manifest prim s pre ns with
         | (s1, none) => apply_manifest prim s1 suf ns
         | (s1, some e) => (s1, some e)) := by
    intro σ ε prim pre suf ns
    induction pre with
    | nil => intro s; simp [apply_manifest]
    | cons doc rest ih =>
      intro s
      cases doc with
      | none =>
        simp only [List.cons_append, apply_manifest]
        exact ih s
      | some dd =>
        by_cases hd : dd.isEmpty
        · simp only [List.cons_append, apply_manifest, hd, if_true]
          exact ih s
        · simp only [List.cons_append, apply_manifest, hd, if_false,
            Bool.false_eq_true]
          cases hf : forceNamespace ns dd with
          | error u => simp [hf]
          | ok d2 =>
            cases hp : prim s d2 with
            | error e => simp [hf, hp]
            | ok s2 =>
              simp only [hf, hp]
              exact ih s2
  refine ⟨?_, ?_, ?_⟩
  · intro σ ε prim s docs ns
    constructor
    · simp [apply_manifest]
    · simp [apply_manifest]
  · intro ns d d2 h
    unfold forceNamespace at h
    cases hl : lookupD d "metadata" with
    | none =>
      rw [hl] at h
      simp only [Except.ok.injEq] at h
      subst h
      refine ⟨[("namespace", PyVal.atom ns)], lookupD_updateD_self _ _ _, ?_⟩
      simp [lookupD]
    | some v =>
      cases v with
      | atom a =>
        rw [hl] at h
        simp at h
      | dict m0 =>
        rw [hl] at h
        simp only [Except.ok.injEq] at h
        subst h
        exact ⟨updateD m0 "namespace" (PyVal.atom ns), lookupD_updateD_self _ _ _,
          lookupD_updateD_self _ _ _⟩
  · intro σ ε prim s s1 pre rest d d2 ns e hpre hd hf hp
    rw [happend prim pre (some d :: rest) ns s, hpre]
    have hde : d.isEmpty = false := by
      cases d with
      | nil => exact absurd rfl hd
      | cons q qs => rfl
    simp [apply_manifest, hde, hf, hp]

/-- Witness for C8 with a fake apply backend recording applied documents:
the first document is applied, the second fails, the state keeps the first
document's effect and the third document is never applied. -/
theorem C8_apply_manifest_witness :
    apply_manifest
      (fun (s : List String) (doc : List (String × PyVal)) =>
        match lookupD doc "kind" with
        | some (PyVal.atom "Bad") => Except.error "boom"
        | _ => Except.ok (s ++ ["applied"]))
      []
      [some [("kind", PyVal.atom "Good")], some [("kind", PyVal.atom "Bad")],
       some [("kind", PyVal.atom "After")]]
      "tenant"
      = (["applied"], some (ApplyErr.primErr "boom")) := by
  exact C8_apply_manifest.2.2
    (fun (s : List String) (doc : List (String × PyVal)) =>
      match lookupD doc "kind" with
      | some (PyVal.atom "Bad") => Except.error "boom"
      | _ => Except.ok (s ++ ["applied"]))
    [] ["applied"]
    [some [("kind", PyVal.atom "Good")]]
    [some [("kind", PyVal.atom "After")]]
    [("kind", PyVal.atom "Bad")] _ "tenant" "boom"
    (by rfl) (by simp) (by rfl) (by rfl)

/--
C10: every delete operation treats an API 404 (`not found`) as success and
returns without raising, while any other API failure (a non-404
`ApiException` or any other exception) raises `KubernetesError`.
-/
theorem C10_delete_not_found_is_success :
    ∀ (name ns : String) (o : ApiOutcome),
      ((delete_service_account name ns o).isOk = true ↔
        o = ApiOutcome.success ∨ o = ApiOutcome.apiException 404) ∧
      ((delete_secret name ns o).isOk = true ↔
        o = ApiOutcome.success ∨ o = ApiOutcome.apiException 404) ∧
      ((delete_role name ns o).isOk = true ↔
        o = ApiOutcome.success ∨ o = ApiOutcome.apiException 404) ∧
      ((delete_role_binding name ns o).isOk = true ↔
        o = ApiOutcome.success ∨ o = ApiOutcome.apiException 404) ∧
      ((delete_cluster_role name o).isOk = true ↔
        o = ApiOutcome.success ∨ o = ApiOutcome.apiException 404) ∧
      ((delete_cluster_role_binding name o).isOk = true ↔
        o = ApiOutcome.success ∨ o = ApiOutcome.apiException 404) := by
  intro name ns o
  cases o with
  | success =>
    simp [delete_service_account, delete_secret, delete_role, delete_role_binding,
      delete_cluster_role, delete_cluster_role_binding, Except.isOk, Except.toBool]
  | apiException status =>
    by_cases hs : status = 404
    · simp [delete_service_account, delete_secret, delete_role, delete_role_binding,
        delete_cluster_role, delete_cluster_role_binding, Except.isOk, Except.toBool, hs]
    · simp [delete_service_account, delete_secret, delete_role, delete_role_binding,
        delete_cluster_role, delete_cluster_role_binding, Except.isOk, Except.toBool, hs]
  | otherFailure =>
    simp [delete_service_account, delete_secret, delete_role, delete_role_binding,
      delete_cluster_role, delete_cluster_role_binding, Except.isOk, Except.toBool]

end Phd
